import Mathlib

/-!
Verification of the deep-unwrap traversal (`objectIterator` / `toRawDeep`)
from the repository's utility snippet.

The source (JavaScript/TypeScript):

  const objectIterator = (input) => {
    if (isRef(input) || isReactive(input) || isProxy(input)) \x7b
      return objectIterator(toRaw(input))
    \x7d
    if (Array.isArray(input)) \x7b
      return input.map((item) => objectIterator(item))
    \x7d
    if (input && typeof input === 'object') \x7b
      return Object.fromEntries(
        Object.entries(input).map(([key, value]) => [key, objectIterator(value)]))
    \x7d
    return input
  }

  export const toRawDeep = (sourceObj) => {
    const returnObject = objectIterator(sourceObj)
    if (!isRecord(returnObject)) \x7b
      throw new TypeError('There was a problem unwrapping your reactive object/ref')
    \x7d
    return returnObject
  }

We embed the JavaScript runtime values the traversal distinguishes as an
inductive type `Value`.  The external reactivity system (Vue's
`isRef` / `isReactive` / `isProxy` / `toRaw`) is abstracted exactly as the
spec's design notes direct: wrapped values form a constructor carrying a
wrapper kind, and unwrapping strips exactly one layer.  Being an inductive
type, `Value` models precisely the finite, acyclic inputs the spec talks
about.
-/

/-- JavaScript primitives as the traversal sees them: values that are not
objects at runtime and fall through to the final `return input` branch.
Numbers are modelled as `Int` (the traversal performs no arithmetic);
`null` is typeof object but falsy, so it also reaches the final branch. -/
inductive Prim where
  | pNum : Int → Prim
  | pStr : String → Prim
  | pBool : Bool → Prim
  | pNull : Prim
  | pUndef : Prim
deriving DecidableEq, Repr

/-- The three wrapper kinds the first branch of `objectIterator` tests for:
a reference cell (`isRef`), a tracked reactive object (`isReactive`), and
an interception proxy (`isProxy`). -/
inductive WrapKind where
  | ref : WrapKind
  | reactive : WrapKind
  | proxy : WrapKind
deriving DecidableEq, Repr

/-- The universe of runtime values the traversal dispatches over:
primitives; functions (typeof is not the object type, so they reach the
final branch; identified by a tag); arrays; plain objects, as their list
of own enumerable string-keyed entries in enumeration order; class
instances, which at runtime are non-array objects too, carrying a class
identity tag plus their own enumerable entries; and wrapped values.
A wrapped value holds its one-level-unwrapped underlying value, per the
spec's abstraction of the external reactivity system. -/
inductive Value where
  | prim : Prim → Value
  | func : Nat → Value
  | arr : List Value → Value
  | obj : List (String × Value) → Value
  | inst : Nat → List (String × Value) → Value
  | wrapped : WrapKind → Value → Value

/-- `isRef(input) || isReactive(input) || isProxy(input)`: true exactly on
wrapped values. -/
def isWrappedValue : Value → Bool
  | .wrapped _ _ => true
  | _ => false

/-- Modelled from the spec: Vue's `toRaw` is external-library code, which
the spec abstracts as `unwrapOnce`, "the operation that strips exactly one
layer of wrapping from a Wrapped Value, returning its immediate underlying
value"; on anything else it is the identity. -/
def toRaw : Value → Value
  | .wrapped _ u => u
  | v => v

mutual

/-- The recursive deep-unwrap traversal, branch for branch from the source:
wrapped values are unwrapped one level and recursed on; arrays map the
traversal over their elements; any remaining non-null object (plain object
or class instance) has its entries mapped through the traversal and
reassembled into a plain object (`Object.fromEntries`); everything else
(primitives, functions) is returned unchanged.  `iterList` and
`iterEntries` are the structural spellings of the two `.map` calls. -/
def objectIterator : Value → Value
  | .wrapped k u => objectIterator (toRaw (.wrapped k u))
  | .arr items => .arr (iterList items)
  | .obj entries => .obj (iterEntries entries)
  | .inst _ entries => .obj (iterEntries entries)
  | .prim p => .prim p
  | .func n => .func n

/-- `input.map((item) => objectIterator(item))` on an array's elements. -/
def iterList : List Value → List Value
  | [] => []
  | v :: rest => objectIterator v :: iterList rest

/-- `Object.entries(input).map(([key, value]) => [key, objectIterator(value)])`
on an object's own enumerable entries. -/
def iterEntries : List (String × Value) → List (String × Value)
  | [] => []
  | (k, v) :: rest => (k, objectIterator v) :: iterEntries rest

end

/-- Modelled from the spec: `isRecord` is used by `toRawDeep` but not
defined anywhere under the repository sources; the spec says the entry
point "validates that the result is itself a keyed mapping".  (On every
value the traversal can return the common runtime reading — non-null,
non-array object — agrees with this one, since the traversal never
returns a class instance.) -/
def isRecord : Value → Bool
  | .obj _ => true
  | _ => false

/-- The message of the TypeError thrown by `toRawDeep` on a shape
mismatch. -/
def shapeErrorMsg : String :=
  "There was a problem unwrapping your reactive object/ref"

/-- The top-level entry point: run the traversal, then check the result is
a keyed mapping; throwing the TypeError is modelled as `Except.error`. -/
def toRawDeep (sourceObj : Value) : Except String Value :=
  let returnObject := objectIterator sourceObj
  if isRecord returnObject then Except.ok returnObject
  else Except.error shapeErrorMsg

/-! ### Basic equations: the two helper functions are the `.map` calls -/

/-- `iterList` is exactly `input.map(objectIterator)`. -/
theorem iterList_eq_map (l : List Value) :
    iterList l = l.map objectIterator := by
  induction l with
  | nil => rfl
  | cons v rest ih => simp [iterList, ih]

/-- `iterEntries` is exactly the entry-wise map keeping keys and
traversing values. -/
theorem iterEntries_eq_map (l : List (String × Value)) :
    iterEntries l = l.map (fun e => (e.1, objectIterator e.2)) := by
  induction l with
  | nil => rfl
  | cons e rest ih =>
    obtain ⟨k, v⟩ := e
    simp [iterEntries, ih]

/-- The wrapper branch: unwrap one level, recurse. -/
theorem objectIterator_wrapped (k : WrapKind) (u : Value) :
    objectIterator (Value.wrapped k u) = objectIterator u := rfl

/-- The array branch as a map over elements. -/
theorem objectIterator_arr (items : List Value) :
    objectIterator (Value.arr items) = Value.arr (items.map objectIterator) := by
  simp [objectIterator, iterList_eq_map]

/-- The plain-object branch as an entry-wise map. -/
theorem objectIterator_obj (entries : List (String × Value)) :
    objectIterator (Value.obj entries) =
      Value.obj (entries.map (fun e => (e.1, objectIterator e.2))) := by
  simp [objectIterator, iterEntries_eq_map]

/-- The class-instance case: instances are non-array objects, so the same
branch fires and rebuilds them as plain objects. -/
theorem objectIterator_inst (i : Nat) (entries : List (String × Value)) :
    objectIterator (Value.inst i entries) =
      Value.obj (entries.map (fun e => (e.1, objectIterator e.2))) := by
  simp [objectIterator, iterEntries_eq_map]

/-! ### Induction over the nested value type -/

/-- Structural induction principle for `Value` that hands the inductive
hypothesis to every member of the nested lists. -/
def Value.inductionOn {motive : Value → Prop}
    (hprim : ∀ p, motive (Value.prim p))
    (hfunc : ∀ n, motive (Value.func n))
    (harr : ∀ items, (∀ v ∈ items, motive v) → motive (Value.arr items))
    (hobj : ∀ entries, (∀ e ∈ entries, motive e.2) → motive (Value.obj entries))
    (hinst : ∀ i entries, (∀ e ∈ entries, motive e.2) → motive (Value.inst i entries))
    (hwrap : ∀ k u, motive u → motive (Value.wrapped k u)) :
    ∀ v, motive v
  | .prim p => hprim p
  | .func n => hfunc n
  | .arr items => harr items (fun v hv =>
      Value.inductionOn hprim hfunc harr hobj hinst hwrap v)
  | .obj entries => hobj entries (fun e he =>
      Value.inductionOn hprim hfunc harr hobj hinst hwrap e.2)
  | .inst i entries => hinst i entries (fun e he =>
      Value.inductionOn hprim hfunc harr hobj hinst hwrap e.2)
  | .wrapped k u => hwrap k u (Value.inductionOn hprim hfunc harr hobj hinst hwrap u)
termination_by v => sizeOf v
decreasing_by
  · have h1 := List.sizeOf_lt_of_mem hv
    simp only [Value.arr.sizeOf_spec]
    omega
  · have h1 := List.sizeOf_lt_of_mem he
    obtain ⟨a, b⟩ := e
    simp only [Prod.mk.sizeOf_spec] at h1
    simp only [Value.obj.sizeOf_spec]
    omega
  · have h1 := List.sizeOf_lt_of_mem he
    obtain ⟨a, b⟩ := e
    simp only [Prod.mk.sizeOf_spec] at h1
    simp only [Value.inst.sizeOf_spec]
    omega
  · simp only [Value.wrapped.sizeOf_spec]
    omega

/-! ### Plainness predicates -/

mutual

/-- No wrapped value (no ref, no reactive object, no proxy) anywhere in
the transitive structure: the spec's notion of a Plain Value. -/
def wrapperFree : Value → Bool
  | .prim _ => true
  | .func _ => true
  | .arr items => wrapperFreeList items
  | .obj entries => wrapperFreeEntries entries
  | .inst _ entries => wrapperFreeEntries entries
  | .wrapped _ _ => false

/-- `wrapperFree` on every member of a list of values. -/
def wrapperFreeList : List Value → Bool
  | [] => true
  | v :: rest => wrapperFree v && wrapperFreeList rest

/-- `wrapperFree` on every value of a list of entries. -/
def wrapperFreeEntries : List (String × Value) → Bool
  | [] => true
  | (_, v) :: rest => wrapperFree v && wrapperFreeEntries rest

end

mutual

/-- The shapes the traversal can output: built from primitives, functions,
arrays and plain objects only — no wrapper and no class instance
anywhere. -/
def plainForm : Value → Bool
  | .prim _ => true
  | .func _ => true
  | .arr items => plainFormList items
  | .obj entries => plainFormEntries entries
  | .inst _ _ => false
  | .wrapped _ _ => false

/-- `plainForm` on every member of a list of values. -/
def plainFormList : List Value → Bool
  | [] => true
  | v :: rest => plainForm v && plainFormList rest

/-- `plainForm` on every value of a list of entries. -/
def plainFormEntries : List (String × Value) → Bool
  | [] => true
  | (_, v) :: rest => plainForm v && plainFormEntries rest

end

mutual

/-- A value of the spec's own data-model grammar containing no Wrapped
Value anywhere: built only from primitives, sequences and keyed
mappings. -/
def isPlainData : Value → Bool
  | .prim _ => true
  | .arr items => isPlainDataList items
  | .obj entries => isPlainDataEntries entries
  | _ => false

/-- `isPlainData` on every member of a list of values. -/
def isPlainDataList : List Value → Bool
  | [] => true
  | v :: rest => isPlainData v && isPlainDataList rest

/-- `isPlainData` on every value of a list of entries. -/
def isPlainDataEntries : List (String × Value) → Bool
  | [] => true
  | (_, v) :: rest => isPlainData v && isPlainDataEntries rest

end

/-- Membership form of `wrapperFreeList`. -/
theorem wrapperFreeList_iff (l : List Value) :
    wrapperFreeList l = true ↔ ∀ v ∈ l, wrapperFree v = true := by
  induction l with
  | nil => simp [wrapperFreeList]
  | cons v rest ih => simp [wrapperFreeList, ih]

/-- Membership form of `wrapperFreeEntries`. -/
theorem wrapperFreeEntries_iff (l : List (String × Value)) :
    wrapperFreeEntries l = true ↔ ∀ e ∈ l, wrapperFree e.2 = true := by
  induction l with
  | nil => simp [wrapperFreeEntries]
  | cons e rest ih =>
    obtain ⟨k, v⟩ := e
    simp [wrapperFreeEntries, ih]

/-- Membership form of `plainFormList`. -/
theorem plainFormList_iff (l : List Value) :
    plainFormList l = true ↔ ∀ v ∈ l, plainForm v = true := by
  induction l with
  | nil => simp [plainFormList]
  | cons v rest ih => simp [plainFormList, ih]

/-- Membership form of `plainFormEntries`. -/
theorem plainFormEntries_iff (l : List (String × Value)) :
    plainFormEntries l = true ↔ ∀ e ∈ l, plainForm e.2 = true := by
  induction l with
  | nil => simp [plainFormEntries]
  | cons e rest ih =>
    obtain ⟨k, v⟩ := e
    simp [plainFormEntries, ih]

/-- Membership form of `isPlainDataList`. -/
theorem isPlainDataList_iff (l : List Value) :
    isPlainDataList l = true ↔ ∀ v ∈ l, isPlainData v = true := by
  induction l with
  | nil => simp [isPlainDataList]
  | cons v rest ih => simp [isPlainDataList, ih]

/-- Membership form of `isPlainDataEntries`. -/
theorem isPlainDataEntries_iff (l : List (String × Value)) :
    isPlainDataEntries l = true ↔ ∀ e ∈ l, isPlainData e.2 = true := by
  induction l with
  | nil => simp [isPlainDataEntries]
  | cons e rest ih =>
    obtain ⟨k, v⟩ := e
    simp [isPlainDataEntries, ih]

/-! ### Core lemmas about the traversal -/

/-- Every output of the traversal is in plain form: no wrapper and no
class instance survives anywhere in the result. -/
theorem plainForm_objectIterator (v : Value) :
    plainForm (objectIterator v) = true := by
  induction v using Value.inductionOn with
  | hprim p => rfl
  | hfunc n => rfl
  | harr items ih =>
    rw [objectIterator_arr]
    simp only [plainForm]
    rw [plainFormList_iff]
    intro x hx
    rw [List.mem_map] at hx
    obtain ⟨v, hv, rfl⟩ := hx
    exact ih v hv
  | hobj entries ih =>
    rw [objectIterator_obj]
    simp only [plainForm]
    rw [plainFormEntries_iff]
    intro e he
    rw [List.mem_map] at he
    obtain ⟨e0, he0, rfl⟩ := he
    exact ih e0 he0
  | hinst i entries ih =>
    rw [objectIterator_inst]
    simp only [plainForm]
    rw [plainFormEntries_iff]
    intro e he
    rw [List.mem_map] at he
    obtain ⟨e0, he0, rfl⟩ := he
    exact ih e0 he0
  | hwrap k u ih =>
    rw [objectIterator_wrapped]
    exact ih

/-- A list whose members are all fixed by `f` is fixed by `List.map f`. -/
theorem map_eq_self_of_fixed {α : Type} (f : α → α) (l : List α)
    (h : ∀ x ∈ l, f x = x) : l.map f = l := by
  induction l with
  | nil => rfl
  | cons x rest ih =>
    simp only [List.map_cons]
    rw [h x (List.mem_cons_self x rest), ih (fun y hy => h y (List.mem_cons_of_mem x hy))]

/-- A value already in plain form is a fixed point of the traversal. -/
theorem objectIterator_fixed (v : Value) (h : plainForm v = true) :
    objectIterator v = v := by
  induction v using Value.inductionOn with
  | hprim p => rfl
  | hfunc n => rfl
  | harr items ih =>
    simp only [plainForm] at h
    rw [plainFormList_iff] at h
    rw [objectIterator_arr]
    congr 1
    apply map_eq_self_of_fixed
    intro v hv
    exact ih v hv (h v hv)
  | hobj entries ih =>
    simp only [plainForm] at h
    rw [plainFormEntries_iff] at h
    rw [objectIterator_obj]
    congr 1
    apply map_eq_self_of_fixed
    intro e he
    obtain ⟨a, b⟩ := e
    have hb := ih (a, b) he (h (a, b) he)
    simpa using hb
  | hinst i entries ih =>
    simp [plainForm] at h
  | hwrap k u ih =>
    simp [plainForm] at h

/-- Plain form implies wrapper-freedom. -/
theorem plainForm_wrapperFree (v : Value) (h : plainForm v = true) :
    wrapperFree v = true := by
  induction v using Value.inductionOn with
  | hprim p => rfl
  | hfunc n => rfl
  | harr items ih =>
    simp only [plainForm] at h
    rw [plainFormList_iff] at h
    simp only [wrapperFree]
    rw [wrapperFreeList_iff]
    intro v hv
    exact ih v hv (h v hv)
  | hobj entries ih =>
    simp only [plainForm] at h
    rw [plainFormEntries_iff] at h
    simp only [wrapperFree]
    rw [wrapperFreeEntries_iff]
    intro e he
    exact ih e he (h e he)
  | hinst i entries ih =>
    simp [plainForm] at h
  | hwrap k u ih =>
    simp [plainForm] at h

/-- A value of the spec's wrapper-free grammar is in plain form. -/
theorem isPlainData_plainForm (v : Value) (h : isPlainData v = true) :
    plainForm v = true := by
  induction v using Value.inductionOn with
  | hprim p => rfl
  | hfunc n => simp [isPlainData] at h
  | harr items ih =>
    simp only [isPlainData] at h
    rw [isPlainDataList_iff] at h
    simp only [plainForm]
    rw [plainFormList_iff]
    intro v hv
    exact ih v hv (h v hv)
  | hobj entries ih =>
    simp only [isPlainData] at h
    rw [isPlainDataEntries_iff] at h
    simp only [plainForm]
    rw [plainFormEntries_iff]
    intro e he
    exact ih e he (h e he)
  | hinst i entries ih =>
    simp [isPlainData] at h
  | hwrap k u ih =>
    simp [isPlainData] at h

/-! ### Fuel-bounded execution: termination of the recursion -/

/-- Run `f` across a list, failing if any element fails: the fuel-bounded
analogue of `.map`. -/
def mapOpt {α β : Type} (f : α → Option β) : List α → Option (List β)
  | [] => some []
  | a :: rest =>
    match f a, mapOpt f rest with
    | some b, some bs => some (b :: bs)
    | _, _ => none

/-- The traversal with an explicit call-stack budget: each recursive call
consumes one unit of fuel, and running out of fuel (the stack-exhaustion
failure mode the spec reserves for cyclic input) yields `none`. -/
def objectIteratorFuel : Nat → Value → Option Value
  | 0, _ => none
  | Nat.succ n, Value.wrapped k u => objectIteratorFuel n (toRaw (Value.wrapped k u))
  | Nat.succ n, Value.arr items =>
      (mapOpt (objectIteratorFuel n) items).map Value.arr
  | Nat.succ n, Value.obj entries =>
      (mapOpt (fun e => (objectIteratorFuel n e.2).map (fun r => (e.1, r))) entries).map
        Value.obj
  | Nat.succ n, Value.inst _ entries =>
      (mapOpt (fun e => (objectIteratorFuel n e.2).map (fun r => (e.1, r))) entries).map
        Value.obj
  | Nat.succ _, v => some v

/-- If `f` succeeds pointwise with value `g a`, then `mapOpt f` succeeds
with the mapped list. -/
theorem mapOpt_eq_some {α β : Type} (f : α → Option β) (g : α → β) (l : List α)
    (h : ∀ a ∈ l, f a = some (g a)) : mapOpt f l = some (l.map g) := by
  induction l with
  | nil => rfl
  | cons a rest ih =>
    simp only [mapOpt, h a (List.mem_cons_self a rest),
      ih (fun y hy => h y (List.mem_cons_of_mem a hy)), List.map_cons]

/-- Fuel adequacy: any budget at least the size of the (finite, acyclic)
input lets the fuel-bounded traversal finish, with the same result as the
recursive function. -/
theorem objectIteratorFuel_adequate (v : Value) :
    ∀ n, sizeOf v ≤ n → objectIteratorFuel n v = some (objectIterator v) := by
  induction v using Value.inductionOn with
  | hprim p =>
    intro n hn
    cases n with
    | zero => simp only [Value.prim.sizeOf_spec] at hn; omega
    | succ m => rfl
  | hfunc k =>
    intro n hn
    cases n with
    | zero => simp only [Value.func.sizeOf_spec] at hn; omega
    | succ m => rfl
  | harr items ih =>
    intro n hn
    cases n with
    | zero => simp only [Value.arr.sizeOf_spec] at hn; omega
    | succ m =>
      have hmap : mapOpt (objectIteratorFuel m) items = some (items.map objectIterator) := by
        apply mapOpt_eq_some
        intro a ha
        apply ih a ha
        have h1 := List.sizeOf_lt_of_mem ha
        simp only [Value.arr.sizeOf_spec] at hn
        omega
      simp only [objectIteratorFuel]
      rw [hmap, objectIterator_arr]
      rfl
  | hobj entries ih =>
    intro n hn
    cases n with
    | zero => simp only [Value.obj.sizeOf_spec] at hn; omega
    | succ m =>
      have hmap : mapOpt (fun e => (objectIteratorFuel m e.2).map (fun r => (e.1, r))) entries
          = some (entries.map (fun e => (e.1, objectIterator e.2))) := by
        apply mapOpt_eq_some
        intro e he
        have h2 := List.sizeOf_lt_of_mem he
        have h3 : sizeOf e.2 < sizeOf e := by
          obtain ⟨a, b⟩ := e
          simp only [Prod.mk.sizeOf_spec]
          omega
        rw [ih e he m (by simp only [Value.obj.sizeOf_spec] at hn; omega)]
        rfl
      simp only [objectIteratorFuel]
      rw [hmap, objectIterator_obj]
      rfl
  | hinst i entries ih =>
    intro n hn
    cases n with
    | zero => simp only [Value.inst.sizeOf_spec] at hn; omega
    | succ m =>
      have hmap : mapOpt (fun e => (objectIteratorFuel m e.2).map (fun r => (e.1, r))) entries
          = some (entries.map (fun e => (e.1, objectIterator e.2))) := by
        apply mapOpt_eq_some
        intro e he
        have h2 := List.sizeOf_lt_of_mem he
        have h3 : sizeOf e.2 < sizeOf e := by
          obtain ⟨a, b⟩ := e
          simp only [Prod.mk.sizeOf_spec]
          omega
        rw [ih e he m (by simp only [Value.inst.sizeOf_spec] at hn; omega)]
        rfl
      simp only [objectIteratorFuel]
      rw [hmap, objectIterator_inst]
      rfl
  | hwrap k u ih =>
    intro n hn
    cases n with
    | zero => simp only [Value.wrapped.sizeOf_spec] at hn; omega
    | succ m =>
      simp only [objectIteratorFuel, objectIterator_wrapped, toRaw]
      apply ih
      simp only [Value.wrapped.sizeOf_spec] at hn
      omega

/-! ### Wrapper chains -/

/-- `p` wrapped in the given layers, outermost first: any mix of ref,
reactive and proxy wrappers. -/
def wrapChain : List WrapKind → Value → Value
  | [], v => v
  | k :: ks, v => Value.wrapped k (wrapChain ks v)

/-- The traversal sees through any chain of wrappers. -/
theorem objectIterator_wrapChain (ks : List WrapKind) (v : Value) :
    objectIterator (wrapChain ks v) = objectIterator v := by
  induction ks with
  | nil => rfl
  | cons k rest ih => rw [wrapChain, objectIterator_wrapped, ih]

/-! ### Key extraction -/

/-- The keys of a keyed mapping in enumeration order (empty for any other
value). -/
def objKeys : Value → List String
  | .obj es => es.map Prod.fst
  | _ => []

/-! ### Claims -/

/-- C1: the result of the traversal contains no Wrapped Value (no ref,
reactive object, or proxy) anywhere in its transitive structure, and the
whole operation either produces such a Plain Value or fails with the
shape-mismatch error. -/
theorem objectIterator_output_plain (v : Value) :
    wrapperFree (objectIterator v) = true ∧
    (toRawDeep v = Except.error shapeErrorMsg ∨
      ∃ r, toRawDeep v = Except.ok r ∧ wrapperFree r = true) := by
  refine ⟨plainForm_wrapperFree _ (plainForm_objectIterator v), ?_⟩
  by_cases h : isRecord (objectIterator v) = true
  · exact Or.inr ⟨objectIterator v, by simp [toRawDeep, h],
      plainForm_wrapperFree _ (plainForm_objectIterator v)⟩
  · exact Or.inl (by simp [toRawDeep, h])

/-- C2: a primitive wrapped in N ≥ 1 layers of any mix of wrapper kinds
traverses to exactly that primitive; each wrapper is stripped one level
and the traversal recurses on the underlying value. -/
theorem objectIterator_wrapper_collapse (ks : List WrapKind) (p : Prim)
    (k : WrapKind) (u : Value) (hks : 1 ≤ ks.length) :
    objectIterator (wrapChain ks (Value.prim p)) = Value.prim p ∧
    objectIterator (Value.wrapped k u) = objectIterator u :=
  ⟨by rw [objectIterator_wrapChain]; rfl, objectIterator_wrapped k u⟩

/-- Witness for C2 at a three-layer mixed chain around the number 7. -/
theorem objectIterator_wrapper_collapse_witness :
    objectIterator (wrapChain [WrapKind.ref, WrapKind.reactive, WrapKind.proxy]
        (Value.prim (Prim.pNum 7))) = Value.prim (Prim.pNum 7) ∧
    objectIterator (Value.wrapped WrapKind.ref (Value.prim (Prim.pStr "s"))) =
      objectIterator (Value.prim (Prim.pStr "s")) :=
  objectIterator_wrapper_collapse [WrapKind.ref, WrapKind.reactive, WrapKind.proxy]
    (Prim.pNum 7) WrapKind.ref (Value.prim (Prim.pStr "s")) (by decide)

/-- C3: on every finite acyclic input the recursion terminates — a fuel
budget of the input's size suffices and the fuel-bounded run returns the
traversal's value rather than failing — and the whole operation either
returns that value or fails with the one shape-mismatch error. -/
theorem objectIterator_terminates (v : Value) :
    objectIteratorFuel (sizeOf v) v = some (objectIterator v) ∧
    (toRawDeep v = Except.ok (objectIterator v) ∨
      toRawDeep v = Except.error shapeErrorMsg) := by
  refine ⟨objectIteratorFuel_adequate v (sizeOf v) le_rfl, ?_⟩
  by_cases h : isRecord (objectIterator v) = true
  · exact Or.inl (by simp [toRawDeep, h])
  · exact Or.inr (by simp [toRawDeep, h])

/-- C4: `toRawDeep` fails with the TypeError exactly when the traversal
result is not a keyed mapping, returns the traversal result unchanged
exactly when it is one, and in particular fails on a wrapped primitive. -/
theorem toRawDeep_shape_check (v : Value) (k : WrapKind) (p : Prim) :
    (toRawDeep v = Except.error shapeErrorMsg ↔
      isRecord (objectIterator v) = false) ∧
    (toRawDeep v = Except.ok (objectIterator v) ↔
      isRecord (objectIterator v) = true) ∧
    toRawDeep (Value.wrapped k (Value.prim p)) = Except.error shapeErrorMsg := by
  refine ⟨?_, ?_, rfl⟩
  · by_cases h : isRecord (objectIterator v) = true <;> simp [toRawDeep, h]
  · by_cases h : isRecord (objectIterator v) = true <;> simp [toRawDeep, h]

/-- C5 counterexample: a class instance (not a sequence, not a plain keyed
mapping, not a wrapper) is not returned as-is — the traversal rebuilds it
as a plain object, so the claim fails at this input. -/
theorem objectIterator_inst_counterexample :
    objectIterator (Value.inst 0 [("a", Value.prim (Prim.pNum 1))]) =
      Value.obj [("a", Value.prim (Prim.pNum 1))] ∧
    objectIterator (Value.inst 0 [("a", Value.prim (Prim.pNum 1))]) ≠
      Value.inst 0 [("a", Value.prim (Prim.pNum 1))] :=
  ⟨rfl, fun h => Value.noConfusion h⟩

/-- C5 amended: class instances are runtime objects, so the traversal's
object branch fires on them — they ARE traversed, rebuilt as plain keyed
mappings of their own enumerable entries, losing class identity; only
non-object values such as functions are returned as-is. -/
theorem objectIterator_inst_traversed (i : Nat)
    (entries : List (String × Value)) (n : Nat) :
    objectIterator (Value.inst i entries) =
      Value.obj (entries.map (fun e => (e.1, objectIterator e.2))) ∧
    objectIterator (Value.func n) = Value.func n :=
  ⟨objectIterator_inst i entries, rfl⟩

/-- C6: a keyed mapping built only from the spec's wrapper-free grammar
(primitives, sequences, keyed mappings — no Wrapped Value anywhere) is
returned deep-equal, here even syntactically equal, to the input. -/
theorem objectIterator_structural_identity (entries : List (String × Value))
    (h : isPlainData (Value.obj entries) = true) :
    objectIterator (Value.obj entries) = Value.obj entries :=
  objectIterator_fixed _ (isPlainData_plainForm _ h)

/-- Witness for C6 at a nested wrapper-free mapping. -/
theorem objectIterator_structural_identity_witness :
    isPlainData (Value.obj
      [("x", Value.arr [Value.prim (Prim.pNum 1), Value.prim Prim.pNull]),
       ("y", Value.obj [("z", Value.prim (Prim.pStr "w"))])]) = true ∧
    objectIterator (Value.obj
      [("x", Value.arr [Value.prim (Prim.pNum 1), Value.prim Prim.pNull]),
       ("y", Value.obj [("z", Value.prim (Prim.pStr "w"))])]) =
      Value.obj
      [("x", Value.arr [Value.prim (Prim.pNum 1), Value.prim Prim.pNull]),
       ("y", Value.obj [("z", Value.prim (Prim.pStr "w"))])] :=
  ⟨rfl, objectIterator_structural_identity
    [("x", Value.arr [Value.prim (Prim.pNum 1), Value.prim Prim.pNull]),
     ("y", Value.obj [("z", Value.prim (Prim.pStr "w"))])] rfl⟩

/-- C7: the traversal is idempotent on every acyclic input. -/
theorem objectIterator_idempotent (v : Value) :
    objectIterator (objectIterator v) = objectIterator v :=
  objectIterator_fixed _ (plainForm_objectIterator v)

/-- C8: a sequence traverses to a new sequence of the same length whose
element at each index is the traversal of the input element there, order
preserved; in particular [a, wrapped b, c] becomes [a, unwrap(b), c]. -/
theorem objectIterator_sequence (items : List Value) (a c : Prim)
    (k : WrapKind) (p : Prim) :
    objectIterator (Value.arr items) = Value.arr (items.map objectIterator) ∧
    (items.map objectIterator).length = items.length ∧
    objectIterator (Value.arr
        [Value.prim a, Value.wrapped k (Value.prim p), Value.prim c]) =
      Value.arr [Value.prim a, Value.prim p, Value.prim c] :=
  ⟨objectIterator_arr items, by simp, rfl⟩

/-- C9: a keyed mapping traverses to a new keyed mapping with the same key
set whose value at each key is the traversal of the input value at that
key; in particular a mapping x ↦ (y ↦ wrapped 5) becomes
x ↦ (y ↦ 5). -/
theorem objectIterator_mapping (entries : List (String × Value))
    (k : WrapKind) :
    objectIterator (Value.obj entries) =
      Value.obj (entries.map (fun e => (e.1, objectIterator e.2))) ∧
    (entries.map (fun e => (e.1, objectIterator e.2))).map Prod.fst =
      entries.map Prod.fst ∧
    objectIterator (Value.obj
        [("x", Value.obj [("y", Value.wrapped k (Value.prim (Prim.pNum 5)))])]) =
      Value.obj [("x", Value.obj [("y", Value.prim (Prim.pNum 5))])] :=
  ⟨objectIterator_obj entries, by simp, rfl⟩

/-- C10: the keyed-mapping branch preserves the enumeration order of the
keys — the output mapping enumerates the same keys in the same order as
the input mapping. -/
theorem objectIterator_key_order (entries : List (String × Value)) :
    objKeys (objectIterator (Value.obj entries)) = objKeys (Value.obj entries) := by
  rw [objectIterator_obj]
  simp [objKeys]
